import Mathlib

/-!
Verification of the restflow workflow-graph compiler
(`python/restflow_ai/parser.py`, `python/restflow_ai/workflow_def.py`,
`python/restflow_ai/decorators.py`).

The Python AST subset that reaches the compiler (the input boundary of the
spec) is embedded as `Expr` / `Stmt`; the graph data model of
`workflow_def.py` as `StepDef` / `NodeDef` / `ParameterDef` / `WorkflowDef`;
the recursive builder `WorkflowParser` as explicit state passing, with
`Option` modelling an uncaught Python exception (`none` = the builder
raised).
-/

/-- Values of `ast.Constant` nodes reaching the compiler: `None`, booleans,
integers and strings (the literal forms the spec's input boundary names). -/
inductive Const where
  | pyNone
  | bool (b : Bool)
  | int (n : Int)
  | str (s : String)

/-- Python runtime values produced by `WorkflowParser._value_to_python` for
keyword/config entries: constants, lists and dicts of values, with arbitrary
expressions kept as their source text (a Python `str`). -/
inductive PyVal where
  | pyNone
  | bool (b : Bool)
  | int (n : Int)
  | str (s : String)
  | list (xs : List PyVal)
  | dict (pairs : List (PyVal × PyVal))

/-- Python expressions at the compiler's input boundary: identifier
references, dotted attribute paths, literal constants, literal
lists/mappings, tuples, call expressions, and an opaque textual form
(`raw`) for anything else (its `ast.unparse` text). -/
inductive Expr where
  | name (id : String)
  | attr (value : Expr) (a : String)
  | const (v : Const)
  | listE (elts : List Expr)
  | dictE (pairs : List (Expr × Expr))
  | tupleE (elts : List Expr)
  | call (fn : Expr) (args : List Expr) (keywords : List (String × Expr))
  | raw (text : String)

/-- Python statements handled by `WorkflowParser`: assignment (the code uses
`targets[0]`, so a single target is modelled), `if`/`else`, `for`, `return`,
and bare expression statements (which `ast.NodeVisitor.generic_visit`
traverses without emitting anything, since no `visit_Expr`/`visit_Call`
method exists). -/
inductive Stmt where
  | assign (target : Expr) (value : Expr)
  | ifS (test : Expr) (body : List Stmt) (orelse : List Stmt)
  | forS (target : Expr) (iter : Expr) (body : List Stmt)
  | ret (value : Option Expr)
  | exprS (value : Expr)

/-- `workflow_def.StepDef`: a single step execution. -/
structure StepDef where
  name : String
  output : String
  inputs : List String
  config : List (String × PyVal)

/-- `workflow_def.NodeDef`: the tagged union of graph node kinds
(`StepDef | ParallelDef | ConditionDef | LoopDef | SequenceDef`). -/
inductive NodeDef where
  | step (s : StepDef)
  | parallel (outputs : List String) (steps : List NodeDef)
  | condition (predicate_id : String) (predicate_source : String)
      (then_branch : NodeDef) (else_branch : Option NodeDef)
  | loop (iter_var : String) (iterable : String) (body : NodeDef)
  | sequence (steps : List NodeDef)

/-- `workflow_def.ParameterDef`: a workflow parameter. -/
structure ParameterDef where
  name : String
  type_hint : String
  default : Option String
deriving DecidableEq

/-- `workflow_def.WorkflowDef` (the data part; serialization is separate). -/
structure WorkflowDef where
  name : String
  parameters : List ParameterDef
  body : NodeDef
  return_var : Option String

/-- The Python repr text of a constant, as `ast.unparse` prints it. -/
def constText : Const → String
  | .pyNone => "None"
  | .bool true => "True"
  | .bool false => "False"
  | .int n => Int.repr n
  | .str s => "'" ++ s ++ "'"

mutual
/-- `ast.unparse` on the embedded expression subset: the source text of an
expression.  Only its totality and injectivity-free properties matter to the
claims; the text for composite forms follows Python surface syntax. -/
def unparse : Expr → String
  | .name id => id
  | .attr v a => unparse v ++ "." ++ a
  | .const c => constText c
  | .listE elts => "[" ++ unparseJoin elts ++ "]"
  | .dictE pairs => "\x7b" ++ unparsePairs pairs ++ "\x7d"
  | .tupleE elts => "(" ++ unparseJoin elts ++ ")"
  | .call fn args kws => unparse fn ++ "(" ++ unparseJoin args ++ unparseKws kws ++ ")"
  | .raw text => text

/-- Comma-joined unparsing of an expression list. -/
def unparseJoin : List Expr → String
  | [] => ""
  | [e] => unparse e
  | e :: rest => unparse e ++ ", " ++ unparseJoin rest

/-- Unparsing of dict literal entries. -/
def unparsePairs : List (Expr × Expr) → String
  | [] => ""
  | [(k, v)] => unparse k ++ ": " ++ unparse v
  | (k, v) :: rest => unparse k ++ ": " ++ unparse v ++ ", " ++ unparsePairs rest

/-- Unparsing of keyword arguments in a call. -/
def unparseKws : List (String × Expr) → String
  | [] => ""
  | (k, v) :: rest => ", " ++ k ++ "=" ++ unparse v ++ unparseKws rest
end

/-- `WorkflowParser._get_func_name`: a plain identifier yields its name, a
dotted access the dot-joined path, anything else `"unknown"`. -/
def getFuncName : Expr → String
  | .name id => id
  | .attr v a => getFuncName v ++ "." ++ a
  | _ => "unknown"

/-- `WorkflowParser._get_assign_target`: `targets[0]` if it is a plain name,
else `"unknown"`. -/
def getAssignTarget (target : Expr) : String :=
  match target with
  | .name id => id
  | _ => "unknown"

/-- `WorkflowParser._get_tuple_targets`: the names among the elements of a
tuple target (non-`Name` elements are silently skipped); `[]` for a
non-tuple target. -/
def getTupleTargets : Expr → List String
  | .tupleE elts => elts.filterMap fun e =>
      match e with
      | .name id => some id
      | _ => Option.none
  | _ => []

/-- The value of a constant as a Python value. -/
def constVal : Const → PyVal
  | .pyNone => .pyNone
  | .bool b => .bool b
  | .int n => .int n
  | .str s => .str s

mutual
/-- `WorkflowParser._value_to_python`: a constant stays a native value,
lists and dicts are converted recursively, and any other expression is kept
as its source text string. -/
def valueToPython : Expr → PyVal
  | .const c => constVal c
  | .listE elts => .list (valueToPythonList elts)
  | .dictE pairs => .dict (valueToPythonPairs pairs)
  | e => .str (unparse e)

/-- Elementwise `_value_to_python` on a list literal. -/
def valueToPythonList : List Expr → List PyVal
  | [] => []
  | e :: rest => valueToPython e :: valueToPythonList rest

/-- Pairwise `_value_to_python` on a dict literal (`zip(node.keys,
node.values)`). -/
def valueToPythonPairs : List (Expr × Expr) → List (PyVal × PyVal)
  | [] => []
  | (k, v) :: rest => (valueToPython k, valueToPython v) :: valueToPythonPairs rest
end

/-- Runtime data context handed to a predicate callable by the engine. -/
def Ctx := List (String × PyVal)

/-- The type of the callables stored in the predicate registry
(`predicates: dict[str, Callable]`, `predicate_id → lambda`). -/
def PredFun := Ctx → Bool

/-- `WorkflowParser`'s mutable state: the emitted node list, the
variable→producer map, the predicate registry, and the predicate counter.
The dict `var_to_step` is modelled as an association list where the most
recent binding is found first (last writer wins). -/
structure WorkflowParser where
  steps : List NodeDef
  var_to_step : List (String × String)
  predicates : List (String × PredFun)
  predicate_counter : Nat

/-- `WorkflowParser.__init__`: empty steps, bindings and registry, counter 0. -/
def WorkflowParser.init : WorkflowParser :=
  { steps := [], var_to_step := [], predicates := [], predicate_counter := 0 }

/-- `WorkflowParser._parse_call`: decompose one call expression into a
`StepDef` with blank output.  `self` is the parser state the Python method
receives; the method reads only the call node, never the state. -/
def parseCall (self : WorkflowParser) (fn : Expr) (args : List Expr)
    (keywords : List (String × Expr)) : StepDef :=
  { name := getFuncName fn
    output := ""
    inputs := args.map fun a =>
      match a with
      | .name id => id
      | _ => unparse a
    config := keywords.map fun kw => (kw.1, valueToPython kw.2) }

/-- The loop body of the tuple branch of `visit_Assign`: walk the value
elements with their index `i`, decompose each call element, look up
`outputs[i]` (a missing index is Python's `IndexError`, modelled as `none`),
record the producer binding, and collect the decomposed steps in order.
Only `var_to_step` changes in the threaded state. -/
def tupleSteps (self : WorkflowParser) (outputs : List String) :
    List Expr → Nat → Option (WorkflowParser × List StepDef)
  | [], _ => some (self, [])
  | elt :: rest, i =>
    match elt with
    | .call fn args kws =>
      match outputs[i]? with
      | Option.none => Option.none
      | some out =>
        let step := { parseCall self fn args kws with output := out }
        let self' := { self with var_to_step := (out, step.name) :: self.var_to_step }
        (tupleSteps self' outputs rest (i + 1)).map fun r => (r.1, step :: r.2)
    | _ => tupleSteps self outputs rest (i + 1)

mutual
/-- `WorkflowParser.visit` dispatch: one statement, returning the updated
parser state, or `none` when the Python code would raise. -/
def visitStmt (self : WorkflowParser) : Stmt → Option WorkflowParser
  | .assign target value =>
    match value with
    | .call fn args kws =>
      -- Single assignment: x = step(y)
      let step := { parseCall self fn args kws with output := getAssignTarget target }
      some { self with
        steps := self.steps ++ [.step step]
        var_to_step := (step.output, step.name) :: self.var_to_step }
    | .tupleE elts =>
      -- Tuple assignment: a, b = step1(), step2() → Parallel
      let outputs := getTupleTargets target
      (tupleSteps self outputs elts 0).map fun r =>
        -- `if parallel_steps:` — append a Parallel node only when nonempty
        match r.2 with
        | [] => r.1
        | _ :: _ => { r.1 with steps := r.1.steps ++ [.parallel outputs (r.2.map .step)] }
    | _ => some self
  | .ifS test body orelse =>
    let predicate_id := "pred_" ++ Nat.repr self.predicate_counter
    let predicate_source := unparse test
    -- then branch: a child builder sharing the registry and counter,
    -- with fresh steps and fresh producer bindings
    let thenChild : WorkflowParser :=
      { steps := [], var_to_step := [], predicates := self.predicates
        predicate_counter := self.predicate_counter + 1 }
    (visitStmts thenChild body).bind fun tp =>
      let then_branch : NodeDef := .sequence tp.steps
      let self1 := { self with predicate_counter := tp.predicate_counter
                               predicates := tp.predicates }
      match orelse with
      | [] =>
        -- `if node.orelse:` — an empty list is falsy, no else branch
        some { self1 with steps := self1.steps ++
          [.condition predicate_id predicate_source then_branch Option.none] }
      | _ :: _ =>
        let elseChild : WorkflowParser :=
          { steps := [], var_to_step := [], predicates := self1.predicates
            predicate_counter := self1.predicate_counter }
        (visitStmts elseChild orelse).bind fun ep =>
          let self2 := { self1 with predicate_counter := ep.predicate_counter
                                    predicates := ep.predicates }
          some { self2 with steps := self2.steps ++
            [.condition predicate_id predicate_source then_branch (some (.sequence ep.steps))] }
  | .forS target iter body =>
    let iter_var := match target with
      | .name id => id
      | _ => "item"
    let iterable := unparse iter
    -- loop body: `body_parser = WorkflowParser()` — a completely fresh
    -- builder, sharing neither the registry nor the counter
    (visitStmts WorkflowParser.init body).bind fun bp =>
      some { self with steps := self.steps ++
        [.loop iter_var iterable (.sequence bp.steps)] }
  | .ret value =>
    match value with
    | some (.call fn args kws) =>
      let step := { parseCall self fn args kws with output := "__return__" }
      some { self with steps := self.steps ++ [.step step] }
    | _ => some self
  | .exprS _ => some self

/-- Visiting a statement list in order (`for stmt in ...: self.visit(stmt)`). -/
def visitStmts (self : WorkflowParser) : List Stmt → Option WorkflowParser
  | [] => some self
  | st :: rest => (visitStmt self st).bind fun s1 => visitStmts s1 rest
end

/-- Loop of `WorkflowParser._find_return_var` over `reversed(self.steps)`:
the first `StepDef` from the end decides the result. -/
def findReturnVarAux : List NodeDef → Option String
  | [] => Option.none
  | .step s :: _rest =>
    if s.output = "__return__" then some "__return__"
    else some s.output
  | _ :: rest => findReturnVarAux rest

/-- `WorkflowParser._find_return_var`. -/
def findReturnVar (steps : List NodeDef) : Option String :=
  findReturnVarAux steps.reverse

/-- One entry of `ast.FunctionDef.args.args`: argument name and optional
annotation expression (`anno` is the `annotation` attribute). -/
structure PyArg where
  arg : String
  anno : Option Expr

/-- The structural content of one `ast.FunctionDef` handed to `parse`:
name, positional arguments, their default expressions
(`ast.arguments.defaults`), and the statement body. -/
structure FunctionDef where
  name : String
  args : List PyArg
  defaults : List Expr
  body : List Stmt

/-- `WorkflowParser._parse_parameters`: name plus the unparsed annotation
text (empty when absent).  The `defaults` of the function are not read, so
`ParameterDef.default` keeps its `None` dataclass default. -/
def parseParameters (func : FunctionDef) : List ParameterDef :=
  func.args.map fun a =>
    { name := a.arg
      type_hint := match a.anno with
        | some e => unparse e
        | Option.none => ""
      default := Option.none }

/-- `WorkflowParser.parse`: run the body through a fresh parser and build
the `WorkflowDef` together with the predicate registry. -/
def parse (func : FunctionDef) : Option (WorkflowDef × List (String × PredFun)) :=
  let parameters := parseParameters func
  (visitStmts WorkflowParser.init func.body).map fun self =>
    ({ name := func.name
       parameters := parameters
       body := .sequence self.steps
       return_var := findReturnVar self.steps }, self.predicates)

/-- `WorkflowWrapper._eval_predicate` (decorators.py): look the id up in the
registry handed over by `parse`; an unknown id raises `ValueError`. -/
def evalPredicate (predicates : List (String × PredFun)) (predicate_id : String)
    (context : Ctx) : Except String Bool :=
  match predicates.find? (fun p => p.1 = predicate_id) with
  | Option.none => .error ("Unknown predicate: " ++ predicate_id)
  | some p => .ok (p.2 context)

mutual
/-- `WorkflowDef._node_to_dict`: the canonical tagged serialization of one
node, as the Python dict (insertion-ordered) that `json.dumps` would emit.
For a `Condition`, `else_branch` is appended only when the field is truthy
(a dataclass instance is always truthy, `None` is falsy), so the key is
present exactly when the branch is present. -/
def nodeToDict : NodeDef → PyVal
  | .step s => .dict
      [(.str "type", .str "Step"),
       (.str "name", .str s.name),
       (.str "output", .str s.output),
       (.str "inputs", .list (s.inputs.map .str)),
       (.str "config", .dict (s.config.map fun p => (.str p.1, p.2)))]
  | .parallel outputs steps => .dict
      [(.str "type", .str "Parallel"),
       (.str "outputs", .list (outputs.map .str)),
       (.str "steps", .list (nodeToDictList steps))]
  | .condition pid psrc tb eb =>
    let base := [(.str "type", .str "Condition"),
                 (.str "predicate_id", .str pid),
                 (.str "predicate_source", .str psrc),
                 (.str "then_branch", nodeToDict tb)]
    match eb with
    | Option.none => .dict base
    | some e => .dict (base ++ [(.str "else_branch", nodeToDict e)])
  | .loop iv itr body => .dict
      [(.str "type", .str "Loop"),
       (.str "iter_var", .str iv),
       (.str "iterable", .str itr),
       (.str "body", nodeToDict body)]
  | .sequence steps => .dict
      [(.str "type", .str "Sequence"),
       (.str "steps", .list (nodeToDictList steps))]

/-- Serialization of a node list. -/
def nodeToDictList : List NodeDef → List PyVal
  | [] => []
  | n :: rest => nodeToDict n :: nodeToDictList rest
end

/-- Decode a serialized string list. -/
def strListD : List PyVal → Except String (List String)
  | [] => .ok []
  | .str s :: rest => (strListD rest).map fun l => s :: l
  | _ => .error "expected a list of strings"

/-- Decode a serialized config mapping (string keys). -/
def strKeyPairs : List (PyVal × PyVal) → Except String (List (String × PyVal))
  | [] => .ok []
  | (.str k, v) :: rest => (strKeyPairs rest).map fun l => (k, v) :: l
  | _ => .error "expected string keys"

mutual
/-- Modelled from the spec: deserialization of the canonical tagged node
document (section 4.1: "Deserialization (needed at minimum for round-trip
testing) must reject an unknown discriminator with a structural error").
The repository ships no Python deserializer — only the serializer
`WorkflowDef._node_to_dict` — so this function inverts that serializer's
canonical layout and rejects a document whose `"type"` discriminator is not
one of the five known tags. -/
def nodeFromDict : PyVal → Except String NodeDef
  | .dict ((.str "type", .str t) :: rest) =>
    if t = "Step" then
      match rest with
      | [(.str "name", .str n), (.str "output", .str o),
         (.str "inputs", .list ins), (.str "config", .dict cfg)] =>
        (strListD ins).bind fun inputs =>
          (strKeyPairs cfg).map fun config =>
            .step { name := n, output := o, inputs := inputs, config := config }
      | _ => .error "malformed Step"
    else if t = "Parallel" then
      match rest with
      | [(.str "outputs", .list outs), (.str "steps", .list xs)] =>
        (strListD outs).bind fun outputs =>
          (nodeFromDictList xs).map fun steps => .parallel outputs steps
      | _ => .error "malformed Parallel"
    else if t = "Condition" then
      match rest with
      | [(.str "predicate_id", .str pid), (.str "predicate_source", .str psrc),
         (.str "then_branch", tb)] =>
        (nodeFromDict tb).map fun tn => .condition pid psrc tn Option.none
      | [(.str "predicate_id", .str pid), (.str "predicate_source", .str psrc),
         (.str "then_branch", tb), (.str "else_branch", eb)] =>
        (nodeFromDict tb).bind fun tn =>
          (nodeFromDict eb).map fun en => .condition pid psrc tn (some en)
      | _ => .error "malformed Condition"
    else if t = "Loop" then
      match rest with
      | [(.str "iter_var", .str iv), (.str "iterable", .str itr),
         (.str "body", b)] =>
        (nodeFromDict b).map fun body => .loop iv itr body
      | _ => .error "malformed Loop"
    else if t = "Sequence" then
      match rest with
      | [(.str "steps", .list xs)] =>
        (nodeFromDictList xs).map fun steps => .sequence steps
      | _ => .error "malformed Sequence"
    else .error ("Unknown node type: " ++ t)
  | _ => .error "expected a node object with a type tag"

/-- Deserialization of a node array. -/
def nodeFromDictList : List PyVal → Except String (List NodeDef)
  | [] => .ok []
  | x :: rest =>
    (nodeFromDict x).bind fun n =>
      (nodeFromDictList rest).map fun ns => n :: ns
end

/-- Whether a serialized object carries a given key. -/
def hasKey (d : PyVal) (k : String) : Bool :=
  match d with
  | .dict pairs => pairs.any fun p =>
      match p.1 with
      | .str s => s == k
      | _ => false
  | _ => false

mutual
/-- All predicate ids occurring in `ConditionDef` nodes of a tree, in
preorder, descending into every branch and loop body. -/
def collectPredIds : NodeDef → List String
  | .step _ => []
  | .parallel _ steps => collectPredIdsList steps
  | .condition pid _ tb eb =>
    pid :: (collectPredIds tb ++ (match eb with
      | some e => collectPredIds e
      | Option.none => []))
  | .loop _ _ body => collectPredIds body
  | .sequence steps => collectPredIdsList steps

/-- `collectPredIds` over a node list. -/
def collectPredIdsList : List NodeDef → List String
  | [] => []
  | n :: rest => collectPredIds n ++ collectPredIdsList rest
end

mutual
/-- Predicate ids of `ConditionDef` nodes that are not nested inside any
loop body: loop bodies are skipped. -/
def collectPredIdsNL : NodeDef → List String
  | .step _ => []
  | .parallel _ steps => collectPredIdsNLList steps
  | .condition pid _ tb eb =>
    pid :: (collectPredIdsNL tb ++ (match eb with
      | some e => collectPredIdsNL e
      | Option.none => []))
  | .loop _ _ _ => []
  | .sequence steps => collectPredIdsNLList steps

/-- `collectPredIdsNL` over a node list. -/
def collectPredIdsNLList : List NodeDef → List String
  | [] => []
  | n :: rest => collectPredIdsNL n ++ collectPredIdsNLList rest
end

mutual
/-- Number of `Step` nodes in a tree. -/
def countSteps : NodeDef → Nat
  | .step _ => 1
  | .parallel _ steps => countStepsList steps
  | .condition _ _ tb eb =>
    countSteps tb + (match eb with
      | some e => countSteps e
      | Option.none => 0)
  | .loop _ _ body => countSteps body
  | .sequence steps => countStepsList steps

/-- `countSteps` over a node list. -/
def countStepsList : List NodeDef → Nat
  | [] => 0
  | n :: rest => countSteps n + countStepsList rest
end

/-- The `len(outputs) == len(steps)` invariant of a `Parallel` node
(vacuously true on other node kinds). -/
def parallelBalanced : NodeDef → Bool
  | .parallel outputs steps => outputs.length == steps.length
  | _ => true

/-! Infrastructure: `Nat.repr` is injective, so distinct counter values give
distinct `"pred_" ++ repr` ids. -/

/-- Reference decimal digit string of a natural number (most significant
digit first), totalised by well-founded recursion on the value. -/
def toDigitsSpec (n : Nat) : List Char :=
  if h : n < 10 then [Nat.digitChar n]
  else toDigitsSpec (n / 10) ++ [Nat.digitChar (n % 10)]
termination_by n
decreasing_by
  exact Nat.div_lt_self (by omega) (by omega)

theorem toDigitsSpec_of_lt {n : Nat} (h : n < 10) :
    toDigitsSpec n = [Nat.digitChar n] := by
  rw [toDigitsSpec]
  simp [h]

theorem toDigitsSpec_of_ge {n : Nat} (h : ¬ n < 10) :
    toDigitsSpec n = toDigitsSpec (n / 10) ++ [Nat.digitChar (n % 10)] := by
  rw [toDigitsSpec]
  simp [h]

theorem toDigitsCore_eq_spec :
    ∀ (f n : Nat) (ds : List Char), n < f →
      Nat.toDigitsCore 10 f n ds = toDigitsSpec n ++ ds := by
  intro f
  induction f with
  | zero => intro n ds h; omega
  | succ f ih =>
    intro n ds h
    by_cases hn : n / 10 = 0
    · have hlt : n < 10 := by omega
      have hmod : n % 10 = n := by omega
      simp [Nat.toDigitsCore, hn, toDigitsSpec_of_lt hlt, hmod]
    · have hge : ¬ n < 10 := by omega
      have hf : n / 10 < f := by omega
      simp [Nat.toDigitsCore, hn, ih (n / 10) _ hf, toDigitsSpec_of_ge hge]

/-- Value of a decimal digit character (0 for anything unexpected). -/
def digitVal (c : Char) : Nat :=
  if c = '1' then 1 else if c = '2' then 2 else if c = '3' then 3
  else if c = '4' then 4 else if c = '5' then 5 else if c = '6' then 6
  else if c = '7' then 7 else if c = '8' then 8 else if c = '9' then 9 else 0

/-- Decimal value of a digit string. -/
def digitsVal (cs : List Char) : Nat :=
  cs.foldl (fun a c => 10 * a + digitVal c) 0

theorem digitVal_digitChar : ∀ d, d < 10 → digitVal (Nat.digitChar d) = d := by
  decide

theorem digitsVal_toDigitsSpec : ∀ n, digitsVal (toDigitsSpec n) = n := by
  intro n
  induction n using Nat.strong_induction_on with
  | _ n ih =>
    by_cases h : n < 10
    · rw [toDigitsSpec_of_lt h]
      simp [digitsVal, digitVal_digitChar n h]
    · rw [toDigitsSpec_of_ge h]
      have ihd := ih (n / 10) (Nat.div_lt_self (by omega) (by omega))
      have hd : digitVal (Nat.digitChar (n % 10)) = n % 10 :=
        digitVal_digitChar (n % 10) (by omega)
      simp only [digitsVal, List.foldl_append, List.foldl_cons, List.foldl_nil] at ihd ⊢
      rw [ihd, hd]
      omega

theorem toDigitsSpec_inj {a b : Nat} (h : toDigitsSpec a = toDigitsSpec b) : a = b := by
  have := congrArg digitsVal h
  simpa [digitsVal_toDigitsSpec] using this

theorem nat_repr_eq_spec (n : Nat) : Nat.repr n = (toDigitsSpec n).asString := by
  show (Nat.toDigits 10 n).asString = _
  rw [Nat.toDigits, toDigitsCore_eq_spec (n + 1) n [] (by omega)]
  simp

theorem nat_repr_inj {a b : Nat} (h : Nat.repr a = Nat.repr b) : a = b := by
  rw [nat_repr_eq_spec, nat_repr_eq_spec] at h
  have hdata := congrArg String.data h
  simp only [List.asString] at hdata
  exact toDigitsSpec_inj hdata

/-- The predicate id issued for counter value `c`: `f"pred_{c}"`. -/
def predName (c : Nat) : String :=
  "pred_" ++ Nat.repr c

theorem predName_inj : Function.Injective predName := by
  intro a b h
  have hdata := congrArg String.data h
  have ha : (predName a).data = "pred_".data ++ (Nat.repr a).data := by
    cases hr : Nat.repr a with
    | mk l => simp [predName, hr, String.append]
  have hb : (predName b).data = "pred_".data ++ (Nat.repr b).data := by
    cases hr : Nat.repr b with
    | mk l => simp [predName, hr, String.append]
  rw [ha, hb] at hdata
  have := List.append_cancel_left hdata
  apply nat_repr_inj
  cases hA : Nat.repr a with
  | mk la =>
    cases hB : Nat.repr b with
    | mk lb =>
      rw [hA, hB] at this
      simp at this
      rw [this]

/-- The ids issued while the shared counter moves from `a` to `b`:
`["pred_a", ..., "pred_(b-1)"]`. -/
def predList (a b : Nat) : List String :=
  (List.range' a (b - a)).map predName

theorem predList_self (a : Nat) : predList a a = [] := by
  simp [predList]

theorem predList_cons {a b : Nat} (h : a < b) :
    predName a :: predList (a + 1) b = predList a b := by
  have hb : b - a = (b - (a + 1)) + 1 := by omega
  simp [predList, hb, List.range'_succ]

theorem predList_append {a b c : Nat} (hab : a ≤ b) (hbc : b ≤ c) :
    predList a b ++ predList b c = predList a c := by
  have h1 : a + (b - a) = b := by omega
  have h2 : (c - b) + (b - a) = c - a := by omega
  calc predList a b ++ predList b c
      = (List.range' a (b - a) ++ List.range' (a + (b - a)) (c - b)).map predName := by
        rw [h1]
        simp [predList, List.map_append]
    _ = (List.range' a ((c - b) + (b - a))).map predName := by
        rw [List.range'_append_1]
    _ = predList a c := by
        rw [h2, predList]

theorem predList_nodup (a b : Nat) : (predList a b).Nodup :=
  (List.nodup_range' a (b - a)).map predName_inj

theorem collectPredIdsNLList_append (l1 l2 : List NodeDef) :
    collectPredIdsNLList (l1 ++ l2) =
      collectPredIdsNLList l1 ++ collectPredIdsNLList l2 := by
  induction l1 with
  | nil => simp [collectPredIdsNLList]
  | cons n rest ih => simp [collectPredIdsNLList, ih]

theorem collectPredIdsNLList_map_step (l : List StepDef) :
    collectPredIdsNLList (l.map .step) = [] := by
  induction l with
  | nil => simp [collectPredIdsNLList]
  | cons s rest ih => simp [collectPredIdsNLList, collectPredIdsNL, ih]

/-- `tupleSteps` only touches the producer bindings: the emitted node list,
the registry and the counter come through unchanged. -/
theorem tupleSteps_state :
    ∀ (elts : List Expr) (i : Nat) (s s' : WorkflowParser)
      (outputs : List String) (l : List StepDef),
      tupleSteps s outputs elts i = some (s', l) →
      s'.steps = s.steps ∧ s'.predicates = s.predicates ∧
        s'.predicate_counter = s.predicate_counter := by
  intro elts
  induction elts with
  | nil =>
    intro i s s' outputs l h
    simp [tupleSteps] at h
    obtain ⟨h1, h2⟩ := h
    subst h1
    simp
  | cons elt rest ih =>
    intro i s s' outputs l h
    cases elt
    case call fn args kws =>
      simp only [tupleSteps] at h
      match hout : outputs[i]? with
      | Option.none =>
        rw [hout] at h
        simp at h
      | some out =>
        rw [hout] at h
        simp only [Option.map_eq_some', Prod.mk.injEq] at h
        obtain ⟨r, hr, hr1, hr2⟩ := h
        subst hr1
        have := ih (i + 1) _ r.1 outputs r.2 hr
        obtain ⟨e1, e2, e3⟩ := this
        exact ⟨by simpa using e1, by simpa using e2, by simpa using e3⟩
    all_goals
      simp only [tupleSteps] at h
      exact ih (i + 1) s s' outputs l h

/-- Invariant of one builder invocation from state `s` to state `s'`: the
shared counter only grows, the registry comes through unchanged (no code
path ever inserts into `self.predicates`), and the not-inside-a-loop
predicate ids of the appended nodes are exactly the ids the counter issued
while moving from `s` to `s'`, in order. -/
def BuilderInv (s s' : WorkflowParser) : Prop :=
  s.predicate_counter ≤ s'.predicate_counter ∧
  s'.predicates = s.predicates ∧
  ∃ new, s'.steps = s.steps ++ new ∧
    collectPredIdsNLList new = predList s.predicate_counter s'.predicate_counter

theorem builderInv_refl (s : WorkflowParser) : BuilderInv s s :=
  ⟨le_refl _, rfl, [], by simp, by simp [collectPredIdsNLList, predList_self]⟩

theorem builderInv_trans {s1 s2 s3 : WorkflowParser}
    (h12 : BuilderInv s1 s2) (h23 : BuilderInv s2 s3) : BuilderInv s1 s3 := by
  obtain ⟨a12, p12, n1, hn1, hc1⟩ := h12
  obtain ⟨a23, p23, n2, hn2, hc2⟩ := h23
  refine ⟨le_trans a12 a23, p23.trans p12, n1 ++ n2, ?_, ?_⟩
  · rw [hn2, hn1, List.append_assoc]
  · rw [collectPredIdsNLList_append, hc1, hc2, predList_append a12 a23]

/-- A step appended with no new ids and an unchanged counter/registry keeps
the invariant. -/
theorem builderInv_quiet {s s' : WorkflowParser} (new : List NodeDef)
    (hsteps : s'.steps = s.steps ++ new)
    (hq : collectPredIdsNLList new = [])
    (hpc : s'.predicate_counter = s.predicate_counter)
    (hpred : s'.predicates = s.predicates) : BuilderInv s s' :=
  ⟨le_of_eq hpc.symm, hpred, new, hsteps, by rw [hq, hpc, predList_self]⟩

mutual
/-- `visitStmt` maintains the builder invariant. -/
theorem visitStmt_inv : ∀ (st : Stmt) (s s' : WorkflowParser),
    visitStmt s st = some s' → BuilderInv s s'
  | .assign target value => by
    intro s s' h
    cases value
    case call fn args kws =>
      have h' := Option.some.inj h
      subst h'
      exact builderInv_quiet _ rfl
        (by simp [collectPredIdsNLList, collectPredIdsNL]) rfl rfl
    case tupleE elts =>
      simp only [visitStmt, Option.map_eq_some'] at h
      obtain ⟨r, hr, hs'⟩ := h
      obtain ⟨e1, e2, e3⟩ := tupleSteps_state elts 0 s r.1 (getTupleTargets target) r.2 hr
      match hr2 : r.2 with
      | [] =>
        rw [hr2] at hs'
        have h' : r.1 = s' := hs'
        subst h'
        exact builderInv_quiet [] (by rw [e1]; simp)
          (by simp [collectPredIdsNLList]) e3 e2
      | c :: cs =>
        rw [hr2] at hs'
        have h' : { r.1 with steps :=
            r.1.steps ++ [.parallel (getTupleTargets target) ((c :: cs).map .step)] } = s' := hs'
        subst h'
        exact builderInv_quiet [.parallel (getTupleTargets target) ((c :: cs).map .step)]
          (by rw [show ({ r.1 with steps := r.1.steps ++
              [NodeDef.parallel (getTupleTargets target) ((c :: cs).map .step)] }
                : WorkflowParser).steps = r.1.steps ++ _ from rfl, e1])
          (by simp [collectPredIdsNLList, collectPredIdsNL, collectPredIdsNLList_map_step])
          e3 e2
    all_goals
      have h' := Option.some.inj h
      subst h'
      exact builderInv_refl s
  | .ifS test body orelse => by
    intro s s' h
    cases orelse with
    | nil =>
      simp only [visitStmt, Option.bind_eq_some] at h
      obtain ⟨tp, htp, h2⟩ := h
      have h' := Option.some.inj h2
      subst h'
      obtain ⟨b1, b2, nb, hb1, hb2⟩ := visitStmts_inv body _ tp htp
      have b1' : s.predicate_counter + 1 ≤ tp.predicate_counter := b1
      have b2' : tp.predicates = s.predicates := b2
      have hb1' : tp.steps = [] ++ nb := hb1
      rw [List.nil_append] at hb1'
      have hb2' : collectPredIdsNLList nb =
          predList (s.predicate_counter + 1) tp.predicate_counter := hb2
      refine ⟨le_trans (Nat.le_succ _) b1', b2',
        [.condition ("pred_" ++ Nat.repr s.predicate_counter) (unparse test)
          (.sequence tp.steps) Option.none], rfl, ?_⟩
      simp only [collectPredIdsNLList, collectPredIdsNL, List.append_nil]
      rw [hb1', hb2']
      exact predList_cons (by omega)
    | cons o os =>
      simp only [visitStmt, Option.bind_eq_some] at h
      obtain ⟨tp, htp, h2⟩ := h
      obtain ⟨ep, hep, h3⟩ := h2
      have h' := Option.some.inj h3
      subst h'
      obtain ⟨b1, b2, nb, hb1, hb2⟩ := visitStmts_inv body _ tp htp
      have b1' : s.predicate_counter + 1 ≤ tp.predicate_counter := b1
      have b2' : tp.predicates = s.predicates := b2
      have hb1' : tp.steps = [] ++ nb := hb1
      rw [List.nil_append] at hb1'
      have hb2' : collectPredIdsNLList nb =
          predList (s.predicate_counter + 1) tp.predicate_counter := hb2
      obtain ⟨c1, c2, ne, he1, he2⟩ := visitStmts_inv (o :: os) _ ep hep
      have c1' : tp.predicate_counter ≤ ep.predicate_counter := c1
      have c2' : ep.predicates = tp.predicates := c2
      have he1' : ep.steps = [] ++ ne := he1
      rw [List.nil_append] at he1'
      have he2' : collectPredIdsNLList ne =
          predList tp.predicate_counter ep.predicate_counter := he2
      refine ⟨le_trans (Nat.le_succ _) (le_trans b1' c1'), c2'.trans b2',
        [.condition ("pred_" ++ Nat.repr s.predicate_counter) (unparse test)
          (.sequence tp.steps) (some (.sequence ep.steps))], rfl, ?_⟩
      simp only [collectPredIdsNLList, collectPredIdsNL, List.append_nil]
      rw [hb1', hb2', he1', he2', predList_append (by omega) c1']
      exact predList_cons (by omega)
  | .forS target iter body => by
    intro s s' h
    simp only [visitStmt, Option.bind_eq_some] at h
    obtain ⟨bp, _hbp, h2⟩ := h
    have h' := Option.some.inj h2
    subst h'
    exact builderInv_quiet _ rfl
      (by simp [collectPredIdsNLList, collectPredIdsNL]) rfl rfl
  | .ret value => by
    intro s s' h
    match value with
    | some (.call fn args kws) =>
      have h' := Option.some.inj h
      subst h'
      exact builderInv_quiet _ rfl
        (by simp [collectPredIdsNLList, collectPredIdsNL]) rfl rfl
    | some (.name v) =>
      have h' := Option.some.inj h
      subst h'
      exact builderInv_refl s
    | some (.attr _ _) | some (.const _) | some (.listE _) | some (.dictE _)
    | some (.tupleE _) | some (.raw _) | Option.none =>
      have h' := Option.some.inj h
      subst h'
      exact builderInv_refl s
  | .exprS e => by
    intro s s' h
    have h' := Option.some.inj h
    subst h'
    exact builderInv_refl s

/-- `visitStmts` maintains the builder invariant. -/
theorem visitStmts_inv : ∀ (sts : List Stmt) (s s' : WorkflowParser),
    visitStmts s sts = some s' → BuilderInv s s'
  | [] => by
    intro s s' h
    have h' := Option.some.inj h
    subst h'
    exact builderInv_refl s
  | st :: rest => by
    intro s s' h
    simp only [visitStmts, Option.bind_eq_some] at h
    obtain ⟨s1, h1, h2⟩ := h
    exact builderInv_trans (visitStmt_inv st s s1 h1) (visitStmts_inv rest s1 s' h2)
end

/-- Corollary of the invariant at the top level: `parse` returns the
never-written empty registry, and the predicate ids of the compiled body
that are not nested inside a loop body are exactly the counter-issued
range, hence pairwise distinct. -/
theorem parse_inv :
    ∀ (func : FunctionDef) (w : WorkflowDef) (preds : List (String × PredFun)),
      parse func = some (w, preds) →
      preds = [] ∧ (collectPredIdsNL w.body).Nodup := by
  intro func w preds h
  simp only [parse, Option.map_eq_some'] at h
  obtain ⟨sf, hsf, heq⟩ := h
  obtain ⟨a1, a2, new, hn, hc⟩ := visitStmts_inv func.body _ sf hsf
  have a2' : sf.predicates = [] := a2
  have hn' : sf.steps = [] ++ new := hn
  rw [List.nil_append] at hn'
  have hc' : collectPredIdsNLList new = predList 0 sf.predicate_counter := hc
  simp only [Prod.mk.injEq] at heq
  obtain ⟨hw, hp⟩ := heq
  subst hw
  subst hp
  refine ⟨a2', ?_⟩
  show (collectPredIdsNL (.sequence sf.steps)).Nodup
  have : collectPredIdsNL (.sequence sf.steps) = collectPredIdsNLList sf.steps := rfl
  rw [this, hn', hc']
  exact predList_nodup 0 sf.predicate_counter

theorem strListD_map : ∀ l : List String, strListD (l.map .str) = .ok l := by
  intro l
  induction l with
  | nil => rfl
  | cons s rest ih => simp [strListD, ih, Except.map]

theorem strKeyPairs_map :
    ∀ l : List (String × PyVal), strKeyPairs (l.map fun p => (.str p.1, p.2)) = .ok l := by
  intro l
  induction l with
  | nil => rfl
  | cons p rest ih => simp [strKeyPairs, ih, Except.map]

mutual
/-- Deserialization inverts the canonical serialization of one node. -/
theorem nodeFromDict_toDict : ∀ x : NodeDef, nodeFromDict (nodeToDict x) = .ok x
  | .step s => by
    simp [nodeToDict, nodeFromDict, strListD_map, strKeyPairs_map, Except.bind, Except.map]
  | .parallel outputs steps => by
    simp [nodeToDict, nodeFromDict, strListD_map,
      nodeFromDictList_toDictList steps, Except.bind, Except.map]
  | .condition pid psrc tb Option.none => by
    simp [nodeToDict, nodeFromDict, nodeFromDict_toDict tb, Except.bind, Except.map]
  | .condition pid psrc tb (some e) => by
    simp [nodeToDict, nodeFromDict, nodeFromDict_toDict tb,
      nodeFromDict_toDict e, Except.bind, Except.map]
  | .loop iv itr body => by
    simp [nodeToDict, nodeFromDict, nodeFromDict_toDict body, Except.bind, Except.map]
  | .sequence steps => by
    simp [nodeToDict, nodeFromDict, nodeFromDictList_toDictList steps,
      Except.bind, Except.map]

/-- Deserialization inverts the canonical serialization of a node list. -/
theorem nodeFromDictList_toDictList :
    ∀ xs : List NodeDef, nodeFromDictList (nodeToDictList xs) = .ok xs
  | [] => rfl
  | x :: rest => by
    simp [nodeToDictList, nodeFromDictList, nodeFromDict_toDict x,
      nodeFromDictList_toDictList rest, Except.bind, Except.map]
end

/-- Check that every call element of a tuple-assignment value has a valid
index into the name-target list: exactly the condition under which
`outputs[i]` never raises `IndexError`. -/
def tupleIdxOk (outs : Nat) : List Expr → Nat → Bool
  | [], _ => true
  | elt :: rest, i =>
    (match elt with
     | .call _ _ _ => decide (i < outs)
     | _ => true) && tupleIdxOk outs rest (i + 1)

mutual
/-- Statements on which the builder cannot raise: every tuple assignment
(also inside branches and loop bodies) keeps its call elements within the
name targets. -/
def coveredStmt : Stmt → Bool
  | .assign target value =>
    match value with
    | .tupleE elts => tupleIdxOk (getTupleTargets target).length elts 0
    | _ => true
  | .ifS _ body orelse => coveredStmts body && coveredStmts orelse
  | .forS _ _ body => coveredStmts body
  | .ret _ => true
  | .exprS _ => true

/-- `coveredStmt` over a statement list. -/
def coveredStmts : List Stmt → Bool
  | [] => true
  | st :: rest => coveredStmt st && coveredStmts rest
end

theorem tupleSteps_total :
    ∀ (elts : List Expr) (i : Nat) (s : WorkflowParser) (outputs : List String),
      tupleIdxOk outputs.length elts i = true →
      (tupleSteps s outputs elts i).isSome := by
  intro elts
  induction elts with
  | nil =>
    intro i s outputs h
    simp [tupleSteps]
  | cons elt rest ih =>
    intro i s outputs h
    simp only [tupleIdxOk, Bool.and_eq_true] at h
    obtain ⟨h1, h2⟩ := h
    cases elt
    case call fn args kws =>
      simp only [decide_eq_true_eq] at h1
      have hout : outputs[i]? = some outputs[i] := List.getElem?_eq_getElem h1
      simp only [tupleSteps, hout]
      simpa [Option.isSome_map] using ih (i + 1) _ outputs h2
    all_goals
      simp only [tupleSteps]
      exact ih (i + 1) s outputs h2

mutual
/-- On covered statements the builder always runs to completion. -/
theorem visitStmt_total : ∀ (st : Stmt) (s : WorkflowParser),
    coveredStmt st = true → (visitStmt s st).isSome
  | .assign target value => by
    intro s h
    cases value
    case tupleE elts =>
      simp only [coveredStmt] at h
      simp only [visitStmt]
      simpa [Option.isSome_map] using
        tupleSteps_total elts 0 s (getTupleTargets target) h
    all_goals simp [visitStmt]
  | .ifS test body orelse => by
    intro s h
    simp only [coveredStmt, Bool.and_eq_true] at h
    obtain ⟨h1, h2⟩ := h
    have hb := visitStmts_total body
      { steps := [], var_to_step := [], predicates := s.predicates,
        predicate_counter := s.predicate_counter + 1 } h1
    rw [Option.isSome_iff_exists] at hb
    obtain ⟨tp, htp⟩ := hb
    cases orelse with
    | nil => simp [visitStmt, htp]
    | cons o os =>
      have he := visitStmts_total (o :: os)
        { steps := [], var_to_step := [], predicates := tp.predicates,
          predicate_counter := tp.predicate_counter } h2
      rw [Option.isSome_iff_exists] at he
      obtain ⟨ep, hep⟩ := he
      simp [visitStmt, htp, hep]
  | .forS target iter body => by
    intro s h
    simp only [coveredStmt] at h
    have hb := visitStmts_total body WorkflowParser.init h
    rw [Option.isSome_iff_exists] at hb
    obtain ⟨bp, hbp⟩ := hb
    simp [visitStmt, hbp]
  | .ret value => by
    intro s _h
    rcases value with _ | e
    · simp [visitStmt]
    · cases e <;> simp [visitStmt]
  | .exprS e => by
    intro s _h
    simp [visitStmt]

/-- On covered statement lists the builder always runs to completion. -/
theorem visitStmts_total : ∀ (sts : List Stmt) (s : WorkflowParser),
    coveredStmts sts = true → (visitStmts s sts).isSome
  | [] => by
    intro s _h
    simp [visitStmts]
  | st :: rest => by
    intro s h
    simp only [coveredStmts, Bool.and_eq_true] at h
    obtain ⟨h1, h2⟩ := h
    have h1' := visitStmt_total st s h1
    rw [Option.isSome_iff_exists] at h1'
    obtain ⟨s1, hs1⟩ := h1'
    have : visitStmts s (st :: rest) = visitStmts s1 rest := by
      simp [visitStmts, hs1]
    rw [this]
    exact visitStmts_total rest s1 h2
end

theorem getTupleTargets_names :
    ∀ names : List String, getTupleTargets (.tupleE (names.map .name)) = names := by
  intro names
  induction names with
  | nil => rfl
  | cons n rest ih =>
    simp only [getTupleTargets, List.map_cons, List.filterMap_cons] at ih ⊢
    rw [ih]

/-- On an all-call element list with enough name targets, `tupleSteps`
succeeds and returns one decomposed step per call, in order. -/
theorem tupleSteps_calls :
    ∀ (calls : List (Expr × List Expr × List (String × Expr))) (i : Nat)
      (s : WorkflowParser) (outputs : List String),
      i + calls.length ≤ outputs.length →
      ∃ (s' : WorkflowParser) (l : List StepDef),
        tupleSteps s outputs (calls.map fun c => Expr.call c.1 c.2.1 c.2.2) i =
          some (s', l) ∧ l.length = calls.length := by
  intro calls
  induction calls with
  | nil =>
    intro i s outputs _h
    exact ⟨s, [], rfl, rfl⟩
  | cons c rest ih =>
    intro i s outputs h
    have hi : i < outputs.length := by
      simp only [List.length_cons] at h
      omega
    have hout : outputs[i]? = some outputs[i] := List.getElem?_eq_getElem hi
    obtain ⟨s', l, hts, hlen⟩ := ih (i + 1)
      { s with var_to_step :=
          (outputs[i], (parseCall s c.1 c.2.1 c.2.2).name) :: s.var_to_step }
      outputs (by simp only [List.length_cons] at h; omega)
    refine ⟨s', { parseCall s c.1 c.2.1 c.2.2 with output := outputs[i] } :: l, ?_, by
      simp [hlen]⟩
    simp only [List.map_cons, tupleSteps, hout, hts, Option.map_some']

/-- Whenever `tupleSteps` succeeds, the number of decomposed steps never
exceeds the number of name targets. -/
theorem tupleSteps_len :
    ∀ (elts : List Expr) (i : Nat) (s s' : WorkflowParser)
      (outputs : List String) (l : List StepDef),
      tupleSteps s outputs elts i = some (s', l) →
      l = [] ∨ l.length + i ≤ outputs.length := by
  intro elts
  induction elts with
  | nil =>
    intro i s s' outputs l h
    simp [tupleSteps] at h
    exact Or.inl h.2
  | cons elt rest ih =>
    intro i s s' outputs l h
    cases elt
    case call fn args kws =>
      simp only [tupleSteps] at h
      match hout : outputs[i]? with
      | Option.none =>
        rw [hout] at h
        simp at h
      | some out =>
        rw [hout] at h
        simp only [Option.map_eq_some', Prod.mk.injEq] at h
        obtain ⟨r, hr, hr1, hr2⟩ := h
        have hi : i < outputs.length := by
          by_contra hc
          rw [List.getElem?_eq_none (by omega)] at hout
          cases hout
        have := ih (i + 1) _ r.1 outputs r.2 hr
        right
        rcases this with h0 | hle
        · rw [← hr2, h0]
          simp only [List.length_cons, List.length_nil]
          omega
        · rw [← hr2]
          simp only [List.length_cons]
          omega
    all_goals
      simp only [tupleSteps] at h
      rcases ih (i + 1) s s' outputs l h with h0 | hle
      · exact Or.inl h0
      · right
        omega

/-- Source body `if c: return v` followed by `for x in xs: if d: return v`. -/
def progIfAndLoopIf : FunctionDef :=
  { name := "wf", args := [], defaults := [],
    body := [.ifS (.name "c") [.ret (some (.name "v"))] [],
             .forS (.name "x") (.name "xs")
               [.ifS (.name "d") [.ret (some (.name "v"))] []]] }

/-- Claim C1 is false on the code: `visit_For` builds the loop-body child
with a plain `WorkflowParser()` that shares neither the registry nor the
counter, so the conditional inside the loop restarts at `"pred_0"` and
collides with the top-level conditional's id: for this workflow the ids
collected across the whole compiled body are `["pred_0", "pred_0"]`, not
pairwise distinct. -/
theorem C1_counterexample :
    (parse progIfAndLoopIf).map (fun r => collectPredIds r.1.body) =
      some ["pred_0", "pred_0"] ∧
    ¬ (["pred_0", "pred_0"] : List String).Nodup :=
  ⟨rfl, by decide⟩

/-- Claim C1 (amended): the counter is threaded through `if`/`else` child
builders only; a loop-body builder restarts from a fresh counter, so global
uniqueness fails across loop bodies, but the predicate ids of all
conditionals *not* nested inside any loop body are pairwise distinct in
every compiled workflow. -/
theorem C1_amended_pred_ids_nodup_outside_loops :
    ∀ (func : FunctionDef) (w : WorkflowDef) (preds : List (String × PredFun)),
      parse func = some (w, preds) → (collectPredIdsNL w.body).Nodup :=
  fun func w preds h => (parse_inv func w preds h).2

/-- Source body `if cond: y = h(x) else: y = k(x)`. -/
def progIfElse : FunctionDef :=
  { name := "wf", args := [], defaults := [],
    body := [.ifS (.name "cond")
               [.assign (.name "y") (.call (.name "h") [.name "x"] [])]
               [.assign (.name "y") (.call (.name "k") [.name "x"] [])]] }

/-- The workflow compiled from `progIfElse`. -/
def wfIfElse : WorkflowDef :=
  { name := "wf", parameters := [],
    body := .sequence [.condition "pred_0" "cond"
      (.sequence [.step { name := "h", output := "y", inputs := ["x"], config := [] }])
      (some (.sequence [.step { name := "k", output := "y", inputs := ["x"], config := [] }]))],
    return_var := Option.none }

/-- Witness for the amended C1 theorem at a concrete workflow. -/
theorem C1_amended_witness : (collectPredIdsNL wfIfElse.body).Nodup :=
  C1_amended_pred_ids_nodup_outside_loops progIfElse wfIfElse [] rfl

/-- Source body `if c: return v`. -/
def progSingleIf : FunctionDef :=
  { name := "wf", args := [], defaults := [],
    body := [.ifS (.name "c") [.ret (some (.name "v"))] []] }

/-- The workflow compiled from `progSingleIf`. -/
def wfSingleIf : WorkflowDef :=
  { name := "wf", parameters := [],
    body := .sequence [.condition "pred_0" "c" (.sequence []) Option.none],
    return_var := Option.none }

/-- Claim C2: the registry returned by `parse` is empty for every workflow —
`visit_If` computes the id and the source text but never inserts into
`self.predicates`, despite its own `# Register predicate as callable`
comment and the `predicate_id → lambda` field documentation; consequently a
workflow that emits `"pred_0"` into a `ConditionDef` ships an empty
registry, and the engine's `_eval_predicate` lookup of that emitted id
raises `ValueError: Unknown predicate: pred_0`. -/
theorem C2_emitted_predicate_never_registered :
    (∀ (func : FunctionDef) (w : WorkflowDef) (preds : List (String × PredFun)),
      parse func = some (w, preds) → preds = []) ∧
    parse progSingleIf = some (wfSingleIf, []) ∧
    collectPredIds wfSingleIf.body = ["pred_0"] ∧
    evalPredicate [] "pred_0" [] = .error "Unknown predicate: pred_0" :=
  ⟨fun func w preds h => (parse_inv func w preds h).1, rfl, rfl, rfl⟩

/-- Witness for the C2 theorem at a concrete workflow. -/
theorem C2_witness : ([] : List (String × PredFun)) = [] :=
  C2_emitted_predicate_never_registered.1 progSingleIf wfSingleIf [] rfl

/-- Source body `a, b = f(), g()` then `return a`. -/
def progParallelThenReturnName : FunctionDef :=
  { name := "wf", args := [], defaults := [],
    body := [.assign (.tupleE [.name "a", .name "b"])
               (.tupleE [.call (.name "f") [] [], .call (.name "g") [] []]),
             .ret (some (.name "a"))] }

/-- The workflow compiled from `progParallelThenReturnName`. -/
def wfParallelThenReturnName : WorkflowDef :=
  { name := "wf", parameters := [],
    body := .sequence [.parallel ["a", "b"]
      [.step { name := "f", output := "a", inputs := [], config := [] },
       .step { name := "g", output := "b", inputs := [], config := [] }]],
    return_var := Option.none }

/-- Claim C3 is false on the code: for `a, b = f(), g(); return a`,
`_find_return_var` only inspects the emitted top-level `StepDef`s — a
`ParallelDef` is skipped and the returned name is never consulted — so
`return_var` is `None`, not `"a"`. -/
theorem C3_counterexample :
    parse progParallelThenReturnName = some (wfParallelThenReturnName, []) ∧
    wfParallelThenReturnName.return_var ≠ some "a" :=
  ⟨rfl, by decide⟩

/-- Claim C3 (amended): `return <call>` appends a Step with the reserved
output `"__return__"`; `return <bare name>` emits no node and leaves the
state untouched; `return_var` is then computed from the top-level steps
alone by `_find_return_var` (the returned name itself is ignored), so the
tuple-assignment scenario yields `return_var = None` rather than `"a"`. -/
theorem C3_amended_return_semantics :
    (∀ (s : WorkflowParser) (fn : Expr) (args : List Expr)
       (kws : List (String × Expr)),
      visitStmt s (.ret (some (.call fn args kws))) =
        some { s with steps := s.steps ++
          [.step { parseCall s fn args kws with output := "__return__" }] }) ∧
    (∀ (s : WorkflowParser) (v : String),
      visitStmt s (.ret (some (.name v))) = some s) ∧
    (∀ (func : FunctionDef) (w : WorkflowDef) (preds : List (String × PredFun)),
      parse func = some (w, preds) →
      ∃ steps, w.body = .sequence steps ∧ w.return_var = findReturnVar steps) ∧
    (parse progParallelThenReturnName).map (fun r => r.1.return_var) =
      some Option.none := by
  refine ⟨fun s fn args kws => rfl, fun s v => rfl, ?_, rfl⟩
  intro func w preds h
  simp only [parse, Option.map_eq_some'] at h
  obtain ⟨sf, hsf, heq⟩ := h
  simp only [Prod.mk.injEq] at heq
  obtain ⟨hw, _hp⟩ := heq
  subst hw
  exact ⟨sf.steps, rfl, rfl⟩

/-- Witness for the amended C3 theorem at a concrete workflow. -/
theorem C3_amended_witness :
    ∃ steps, wfParallelThenReturnName.body = .sequence steps ∧
      wfParallelThenReturnName.return_var = findReturnVar steps :=
  C3_amended_return_semantics.2.2.1 progParallelThenReturnName
    wfParallelThenReturnName [] rfl

/-- The node emitted for `a, b = f(), 1`. -/
def mixedParallelNode : NodeDef :=
  .parallel ["a", "b"] [.step { name := "f", output := "a", inputs := [], config := [] }]

/-- Claim C4 is false on the code for tuple assignments with non-call
elements: `a, b = f(), 1` emits a `ParallelDef` with two outputs but only
one step, so `len(outputs) == len(steps)` does not "still hold". -/
theorem C4_counterexample :
    visitStmt WorkflowParser.init
      (.assign (.tupleE [.name "a", .name "b"])
        (.tupleE [.call (.name "f") [] [], .const (.int 1)])) =
      some { steps := [mixedParallelNode], var_to_step := [("a", "f")],
             predicates := [], predicate_counter := 0 } ∧
    parallelBalanced mixedParallelNode = false :=
  ⟨rfl, rfl⟩

/-- Claim C4 (amended): for a call-only tuple assignment whose targets are
plain names matching the value in length, the emitted `ParallelDef` has
`len(outputs) = len(steps) = N` with outputs in source order; in general an
emitted `ParallelDef` only satisfies `len(steps) ≤ len(outputs)` — non-call
elements are dropped from `steps` while their targets stay in `outputs`. -/
theorem C4_amended_parallel_lengths :
    (∀ (s : WorkflowParser) (names : List String)
       (calls : List (Expr × List Expr × List (String × Expr))),
      names.length = calls.length → calls ≠ [] →
      ∃ (l : List StepDef) (s' : WorkflowParser),
        visitStmt s (.assign (.tupleE (names.map .name))
          (.tupleE (calls.map fun c => Expr.call c.1 c.2.1 c.2.2))) = some s' ∧
        s'.steps = s.steps ++ [.parallel names (l.map .step)] ∧
        l.length = names.length) ∧
    (∀ (s : WorkflowParser) (target : Expr) (elts : List Expr)
       (s' : WorkflowParser),
      visitStmt s (.assign target (.tupleE elts)) = some s' →
      s'.steps = s.steps ∨
      ∃ l, l ≠ [] ∧
        s'.steps = s.steps ++ [.parallel (getTupleTargets target) (l.map .step)] ∧
        l.length ≤ (getTupleTargets target).length) := by
  constructor
  · intro s names calls hlen hne
    obtain ⟨s', l, hts, hl⟩ := tupleSteps_calls calls 0 s names (by omega)
    cases l with
    | nil =>
      cases calls with
      | nil => exact absurd rfl hne
      | cons c cs => simp at hl
    | cons st0 lrest =>
      obtain ⟨e1, _e2, _e3⟩ :=
        tupleSteps_state _ 0 s s' names (st0 :: lrest) hts
      refine ⟨st0 :: lrest,
        { s' with steps := s'.steps ++ [.parallel names ((st0 :: lrest).map .step)] },
        ?_, ?_, hl.trans hlen.symm⟩
      · simp only [visitStmt, getTupleTargets_names, hts, Option.map_some']
      · simp [e1]
  · intro s target elts s' h
    simp only [visitStmt, Option.map_eq_some'] at h
    obtain ⟨r, hr, hs'⟩ := h
    obtain ⟨e1, _e2, _e3⟩ :=
      tupleSteps_state elts 0 s r.1 (getTupleTargets target) r.2 hr
    match hr2 : r.2 with
    | [] =>
      rw [hr2] at hs'
      have h' : r.1 = s' := hs'
      subst h'
      exact Or.inl e1
    | c :: cs =>
      rw [hr2] at hs'
      have h' : { r.1 with steps :=
          r.1.steps ++ [.parallel (getTupleTargets target) ((c :: cs).map .step)] } = s' := hs'
      subst h'
      right
      refine ⟨c :: cs, by simp, by
        rw [show ({ r.1 with steps := r.1.steps ++
            [NodeDef.parallel (getTupleTargets target) ((c :: cs).map .step)] }
              : WorkflowParser).steps = r.1.steps ++ _ from rfl, e1], ?_⟩
      rcases tupleSteps_len elts 0 s r.1 (getTupleTargets target) (c :: cs)
        (by rw [← hr2]; exact hr) with h0 | hle
      · cases h0
      · omega

/-- Witness for the amended C4 theorem at `a, b = f(), g()`. -/
theorem C4_amended_witness :
    ∃ (l : List StepDef) (s' : WorkflowParser),
      visitStmt WorkflowParser.init
        (.assign (.tupleE ((["a", "b"] : List String).map .name))
          (.tupleE (([(.name "f", [], []), (.name "g", [], [])] :
              List (Expr × List Expr × List (String × Expr))).map
            fun c => Expr.call c.1 c.2.1 c.2.2))) = some s' ∧
      s'.steps = WorkflowParser.init.steps ++ [.parallel ["a", "b"] (l.map .step)] ∧
      l.length = (["a", "b"] : List String).length :=
  C4_amended_parallel_lengths.1 WorkflowParser.init ["a", "b"]
    [(.name "f", [], []), (.name "g", [], [])] rfl (by simp)

/-- Claim C5 is false on the code: the supported shape `x = f(), g()` (a
tuple value assigned to a single name) raises `IndexError` — the target is
not a tuple, so `_get_tuple_targets` returns `[]` and `outputs[0]` is out
of range; compilation aborts instead of degrading. -/
theorem C5_counterexample :
    visitStmt WorkflowParser.init
      (.assign (.name "x")
        (.tupleE [.call (.name "f") [] [], .call (.name "g") [] []])) =
      Option.none :=
  rfl

/-- Claim C5 (amended): the builder runs to completion on every supported
statement tree in which each tuple assignment keeps the indexes of its call
elements inside the name-target list (in particular whenever targets are
plain names at least as numerous as the value elements); outside that
condition `outputs[i]` raises `IndexError`. -/
theorem C5_amended_no_raise_when_covered :
    ∀ func : FunctionDef, coveredStmts func.body = true → (parse func).isSome := by
  intro func h
  have h' := visitStmts_total func.body WorkflowParser.init h
  rw [Option.isSome_iff_exists] at h'
  obtain ⟨sf, hsf⟩ := h'
  simp [parse, hsf]

/-- Witness for the amended C5 theorem at a concrete program. -/
theorem C5_amended_witness :
    coveredStmts progIfAndLoopIf.body = true ∧ (parse progIfAndLoopIf).isSome :=
  ⟨rfl, C5_amended_no_raise_when_covered progIfAndLoopIf rfl⟩

/-- Source body `for item in items: p(item)`. -/
def progLoopBareCall : FunctionDef :=
  { name := "wf", args := [], defaults := [],
    body := [.forS (.name "item") (.name "items")
               [.exprS (.call (.name "p") [.name "item"] [])]] }

/-- The body the code actually compiles: the loop body sequence is empty. -/
def loopBodyActual : NodeDef := .sequence [.loop "item" "items" (.sequence [])]

/-- The body the claim expects: a Step node for the bare call. -/
def loopBodyClaimed : NodeDef :=
  .sequence [.loop "item" "items"
    (.sequence [.step { name := "p", output := "", inputs := ["item"], config := [] }])]

/-- Claim C6 is false on the code: a bare call statement emits no node
(there is no `visit_Expr`/`visit_Call` handler, and `generic_visit` appends
nothing), so `for item in items: p(item)` compiles to a Loop whose body is
the empty sequence — not to a Loop containing `Step(p, inputs=["item"])`. -/
theorem C6_counterexample :
    (parse progLoopBareCall).map (fun r => r.1.body) = some loopBodyActual ∧
    loopBodyActual ≠ loopBodyClaimed := by
  refine ⟨rfl, fun hc => ?_⟩
  have h0 := congrArg countSteps hc
  simp [loopBodyActual, loopBodyClaimed, countSteps, countStepsList] at h0

/-- Claim C6 (amended): a bare expression statement is a no-op for the
builder, so the loop compiles to
`Sequence[Loop(iter_var "item", iterable "items", body Sequence[])]` with
`return_var = None` and an empty registry. -/
theorem C6_amended_bare_call_ignored :
    (∀ (s : WorkflowParser) (e : Expr), visitStmt s (.exprS e) = some s) ∧
    parse progLoopBareCall =
      some ({ name := "wf", parameters := [], body := loopBodyActual,
              return_var := Option.none }, []) :=
  ⟨fun _ _ => rfl, rfl⟩

/-- Claim C7: deserialization (modelled from the spec, since the repository
ships only the serializer `_node_to_dict`) inverts the canonical
serialization on every constructible `NodeDef` tree, and a document whose
`"type"` discriminator is none of the five known tags is rejected with a
structural error. -/
theorem C7_roundtrip_and_unknown_tag :
    (∀ x : NodeDef, nodeFromDict (nodeToDict x) = .ok x) ∧
    (∀ (t : String) (rest : List (PyVal × PyVal)),
      t ∉ (["Step", "Parallel", "Condition", "Loop", "Sequence"] : List String) →
      nodeFromDict (.dict ((.str "type", .str t) :: rest)) =
        .error ("Unknown node type: " ++ t)) := by
  refine ⟨nodeFromDict_toDict, ?_⟩
  intro t rest h
  simp only [List.mem_cons, not_or] at h
  obtain ⟨h1, h2, h3, h4, h5, -⟩ := h
  rw [nodeFromDict.eq_def]
  simp [h1, h2, h3, h4, h5]

/-- Witness for the C7 theorem at a concrete unknown discriminator. -/
theorem C7_witness :
    nodeFromDict (.dict [(.str "type", .str "Nope")]) =
      .error ("Unknown node type: " ++ "Nope") :=
  C7_roundtrip_and_unknown_tag.2 "Nope" [] (by decide)

/-- Claim C8: a compiled `ConditionDef` carries an `else_branch` exactly
when the source conditional had an else clause (`if node.orelse:` on the
statement list, `if node.else_branch:` truthiness in the serializer — a
non-`None` dataclass is always truthy), and the serialized Condition record
contains the key `"else_branch"` exactly when the branch is present, never
a null placeholder. -/
theorem C8_else_branch_iff_source_else :
    (∀ (s : WorkflowParser) (test : Expr) (body orelse : List Stmt)
       (s' : WorkflowParser),
      visitStmt s (.ifS test body orelse) = some s' →
      ∃ tb eb, s'.steps = s.steps ++
          [.condition ("pred_" ++ Nat.repr s.predicate_counter) (unparse test) tb eb] ∧
        (eb = Option.none ↔ orelse = [])) ∧
    (∀ (pid psrc : String) (tb : NodeDef) (eb : Option NodeDef),
      hasKey (nodeToDict (.condition pid psrc tb eb)) "else_branch" = eb.isSome) := by
  constructor
  · intro s test body orelse s' h
    cases orelse with
    | nil =>
      simp only [visitStmt, Option.bind_eq_some] at h
      obtain ⟨tp, htp, h2⟩ := h
      have h' := Option.some.inj h2
      subst h'
      exact ⟨.sequence tp.steps, Option.none, rfl, by simp⟩
    | cons o os =>
      simp only [visitStmt, Option.bind_eq_some] at h
      obtain ⟨tp, htp, h2⟩ := h
      obtain ⟨ep, hep, h3⟩ := h2
      have h' := Option.some.inj h3
      subst h'
      exact ⟨.sequence tp.steps, some (.sequence ep.steps), rfl, by simp⟩
  · intro pid psrc tb eb
    cases eb <;> rfl

/-- The parser state after `if c: return v` from the initial state. -/
def stateAfterSingleIf : WorkflowParser :=
  { steps := [.condition "pred_0" "c" (.sequence []) Option.none],
    var_to_step := [], predicates := [], predicate_counter := 1 }

/-- Witness for the C8 theorem at a concrete conditional without else. -/
theorem C8_witness :
    ∃ tb eb, stateAfterSingleIf.steps = WorkflowParser.init.steps ++
        [.condition ("pred_" ++ Nat.repr WorkflowParser.init.predicate_counter)
          (unparse (.name "c")) tb eb] ∧
      (eb = Option.none ↔ ([] : List Stmt) = []) :=
  C8_else_branch_iff_source_else.1 WorkflowParser.init (.name "c")
    [.ret (some (.name "v"))] [] stateAfterSingleIf rfl

/-- A function with one unannotated parameter carrying default `5`. -/
def funcWithDefault : FunctionDef :=
  { name := "wf", args := [{ arg := "x", anno := Option.none }],
    defaults := [.const (.int 5)], body := [] }

/-- Claim C9 is false on the code for the default part:
`_parse_parameters` never reads `ast.arguments.defaults`, so a parameter
with the literal default `5` still yields `ParameterDef.default = None`
instead of the captured text `"5"`. -/
theorem C9_counterexample :
    parseParameters funcWithDefault =
      [{ name := "x", type_hint := "", default := Option.none }] ∧
    ({ name := "x", type_hint := "", default := Option.none } : ParameterDef) ≠
      { name := "x", type_hint := "", default := some "5" } :=
  ⟨rfl, by decide⟩

/-- Claim C9 (amended): every compiled parameter captures the declared name
and the unresolved textual annotation (empty string when absent), but
defaults are never captured: `ParameterDef.default` is `None` for every
parameter of every compiled workflow. -/
theorem C9_amended_parameters :
    ∀ (func : FunctionDef) (w : WorkflowDef) (preds : List (String × PredFun)),
      parse func = some (w, preds) →
      w.parameters.map ParameterDef.name = func.args.map PyArg.arg ∧
      w.parameters.map ParameterDef.type_hint = func.args.map (fun a =>
        match a.anno with
        | some e => unparse e
        | Option.none => "") ∧
      ∀ p ∈ w.parameters, p.default = Option.none := by
  intro func w preds h
  simp only [parse, Option.map_eq_some'] at h
  obtain ⟨sf, _hsf, heq⟩ := h
  simp only [Prod.mk.injEq] at heq
  obtain ⟨hw, _hp⟩ := heq
  subst hw
  refine ⟨?_, ?_, ?_⟩
  · show (parseParameters func).map ParameterDef.name = _
    rw [parseParameters, List.map_map]
    rfl
  · show (parseParameters func).map ParameterDef.type_hint = _
    rw [parseParameters, List.map_map]
    rfl
  · intro p hp
    show p.default = Option.none
    rw [parseParameters] at hp
    simp only [List.mem_map] at hp
    obtain ⟨a, _ha, hpa⟩ := hp
    rw [← hpa]

/-- The workflow compiled from `funcWithDefault`. -/
def wfWithDefault : WorkflowDef :=
  { name := "wf",
    parameters := [{ name := "x", type_hint := "", default := Option.none }],
    body := .sequence [], return_var := Option.none }

/-- Witness for the amended C9 theorem at a concrete function. -/
theorem C9_amended_witness :
    wfWithDefault.parameters.map ParameterDef.name =
        funcWithDefault.args.map PyArg.arg ∧
      wfWithDefault.parameters.map ParameterDef.type_hint =
        funcWithDefault.args.map (fun a =>
          match a.anno with
          | some e => unparse e
          | Option.none => "") ∧
      ∀ p ∈ wfWithDefault.parameters, p.default = Option.none :=
  C9_amended_parameters funcWithDefault wfWithDefault [] rfl

/-- Claim C10: `_parse_call` reads only the call expression, never the
parser state — any two states (in particular two states differing only in
their `var_to_step` producer bindings) yield the identical `StepDef`, whose
fields are determined syntactically: callee path, blank output, positional
arguments as bare names or unparsed text, keyword values constant-folded. -/
theorem C10_parse_call_independent_of_state :
    ∀ (s1 s2 : WorkflowParser) (fn : Expr) (args : List Expr)
      (kws : List (String × Expr)),
      parseCall s1 fn args kws = parseCall s2 fn args kws ∧
      (parseCall s1 fn args kws).name = getFuncName fn ∧
      (parseCall s1 fn args kws).output = "" ∧
      (parseCall s1 fn args kws).inputs = args.map (fun a =>
        match a with
        | .name id => id
        | _ => unparse a) ∧
      (parseCall s1 fn args kws).config =
        kws.map (fun kw => (kw.1, valueToPython kw.2)) :=
  fun _ _ _ _ _ => ⟨rfl, rfl, rfl, rfl, rfl⟩
